import Mathlib

/-!
Verification of the incremental trie-persistence subsystem of this repository:
the trie delta model (crates/trie/trie/src/updates.rs), the in-memory overlay
cursors (crates/trie/trie/src/trie_cursor/in_memory.rs), and the persistence
actor and handle (crates/engine/tree/src/persistence.rs), shallowly embedded.
-/

/-- A nibble path: a sequence of 4-bit values; its order is the lexicographic
order of the underlying vector (Rust derived Ord on Nibbles). -/
abbrev Nibbles := List Nat

/-- Hashed account identifier (B256, 32 bytes).  Its derived Ord is the
lexicographic byte order, which for a fixed-width array coincides with the
numeric order of the value, so we model it by a natural number. -/
abbrev B256 := Nat

/-- Opaque compact branch-node encoding (children bitmap + hashes); all the
claims treat it abstractly, so it is modelled as a wrapped tag. -/
structure BranchNodeCompact where
  val : Nat
  deriving DecidableEq

/-- The key of a trie node (updates.rs, enum TrieKey).  The derived Rust Ord
compares the variant discriminant first (AccountNode < StorageNode <
StorageTrie), then the fields lexicographically. -/
inductive TrieKey where
  | AccountNode (path : Nibbles)
  | StorageNode (account : B256) (path : Nibbles)
  | StorageTrie (account : B256)
  deriving DecidableEq

/-- The operation to perform on the trie (updates.rs, enum TrieOp). -/
inductive TrieOp where
  | Delete
  | Update (node : BranchNodeCompact)
  deriving DecidableEq

/-- TrieOp::is_update. -/
def TrieOp.is_update : TrieOp → Bool
  | .Delete => false
  | .Update _ => true

/-- TrieOp::as_update (reference version; in this embedding both return the
node by value). -/
def TrieOp.as_update : TrieOp → Option BranchNodeCompact
  | .Delete => none
  | .Update node => some node

/-- TrieOp::into_update. -/
def TrieOp.into_update : TrieOp → Option BranchNodeCompact
  | .Delete => none
  | .Update node => some node

/-- Lexicographic comparison of nibble paths: Rust derived Ord on Vec. -/
def nibblesCmp : Nibbles → Nibbles → Ordering
  | [], [] => .eq
  | [], _ :: _ => .lt
  | _ :: _, [] => .gt
  | a :: as_, b :: bs => match compare a b with
      | .eq => nibblesCmp as_ bs
      | o => o

/-- Non-strict order on nibble paths (Rust PartialOrd le). -/
def nibblesLe (a b : Nibbles) : Bool :=
  match nibblesCmp a b with
  | .gt => false
  | _ => true

/-- Strict order on nibble paths (Rust PartialOrd lt). -/
def nibblesLt (a b : Nibbles) : Bool :=
  match nibblesCmp a b with
  | .lt => true
  | _ => false

/-- Comparison on TrieKey mirroring the derived Rust Ord: variant
discriminant first, then account, then path. -/
def trieKeyCmp : TrieKey → TrieKey → Ordering
  | .AccountNode a, .AccountNode b => nibblesCmp a b
  | .AccountNode _, .StorageNode _ _ => .lt
  | .AccountNode _, .StorageTrie _ => .lt
  | .StorageNode _ _, .AccountNode _ => .gt
  | .StorageNode a p, .StorageNode b q =>
      match compare a b with
      | .eq => nibblesCmp p q
      | o => o
  | .StorageNode _ _, .StorageTrie _ => .lt
  | .StorageTrie _, .AccountNode _ => .gt
  | .StorageTrie _, .StorageNode _ _ => .gt
  | .StorageTrie a, .StorageTrie b => compare a b

/-- Non-strict TrieKey order. -/
def trieKeyLe (a b : TrieKey) : Bool :=
  match trieKeyCmp a b with
  | .gt => false
  | _ => true

/-- Strict TrieKey order. -/
def trieKeyLt (a b : TrieKey) : Bool :=
  match trieKeyCmp a b with
  | .lt => true
  | _ => false

theorem nibblesCmp_eq_eq : ∀ {a b : Nibbles}, nibblesCmp a b = .eq ↔ a = b := by
  intro a
  induction a with
  | nil => intro b; cases b <;> simp [nibblesCmp]
  | cons x xs ih =>
    intro b
    cases b with
    | nil => simp [nibblesCmp]
    | cons y ys =>
      simp only [nibblesCmp]
      cases h : compare x y with
      | eq =>
        have hxy : x = y := Nat.compare_eq_eq.1 h
        simp [hxy, ih]
      | lt =>
        have hxy : x < y := Nat.compare_eq_lt.1 h
        simp [Nat.ne_of_lt hxy]
      | gt =>
        have hxy : y < x := Nat.compare_eq_gt.1 h
        simp [(Nat.ne_of_lt hxy).symm]

theorem natCompare_swap (a b : Nat) : compare b a = (compare a b).swap := by
  rcases Nat.lt_trichotomy a b with h | h | h
  · rw [Nat.compare_eq_lt.2 h, Nat.compare_eq_gt.2 h]; rfl
  · subst h
    rw [Nat.compare_eq_eq.2 rfl]
    rfl
  · rw [Nat.compare_eq_gt.2 h, Nat.compare_eq_lt.2 h]; rfl

theorem nibblesCmp_swap : ∀ (a b : Nibbles), nibblesCmp b a = (nibblesCmp a b).swap := by
  intro a
  induction a with
  | nil => intro b; cases b <;> simp [nibblesCmp, Ordering.swap]
  | cons x xs ih =>
    intro b
    cases b with
    | nil => simp [nibblesCmp, Ordering.swap]
    | cons y ys =>
      simp only [nibblesCmp, natCompare_swap x y]
      cases compare x y <;> simp [Ordering.swap, ih]

theorem natCompare_lt_trans {a b c : Nat} (h1 : compare a b = .lt)
    (h2 : compare b c = .lt) : compare a c = .lt :=
  Nat.compare_eq_lt.2 (Nat.lt_trans (Nat.compare_eq_lt.1 h1) (Nat.compare_eq_lt.1 h2))

theorem nibblesCmp_lt_trans :
    ∀ {a b c : Nibbles}, nibblesCmp a b = .lt → nibblesCmp b c = .lt → nibblesCmp a c = .lt := by
  intro a
  induction a with
  | nil =>
    intro b c h1 h2
    cases b with
    | nil => exact h2
    | cons y ys => cases c with
      | nil => simp [nibblesCmp] at h2
      | cons z zs => simp [nibblesCmp]
  | cons x xs ih =>
    intro b c h1 h2
    cases b with
    | nil => simp [nibblesCmp] at h1
    | cons y ys =>
      cases c with
      | nil => simp [nibblesCmp] at h2
      | cons z zs =>
        cases hxy : compare x y with
        | gt => simp [nibblesCmp, hxy] at h1
        | eq =>
          have hxe : x = y := Nat.compare_eq_eq.1 hxy
          subst hxe
          simp only [nibblesCmp, hxy] at h1
          cases hyz : compare x z with
          | gt => simp [nibblesCmp, hyz] at h2
          | eq =>
            simp only [nibblesCmp, hyz] at h2
            simp only [nibblesCmp, hyz]
            exact ih h1 h2
          | lt => simp [nibblesCmp, hyz]
        | lt =>
          cases hyz : compare y z with
          | gt => simp [nibblesCmp, hyz] at h2
          | eq =>
            have hye : y = z := Nat.compare_eq_eq.1 hyz
            subst hye
            simp [nibblesCmp, hxy]
          | lt =>
            simp [nibblesCmp, natCompare_lt_trans hxy hyz]

theorem trieKeyCmp_eq_eq : ∀ {a b : TrieKey}, trieKeyCmp a b = .eq ↔ a = b := by
  intro a b
  cases a <;> cases b <;> simp only [trieKeyCmp] <;> try simp
  case AccountNode.AccountNode p q => rw [nibblesCmp_eq_eq]
  case StorageNode.StorageNode x p y q =>
    cases h : compare x y with
    | eq =>
      have hxy : x = y := Nat.compare_eq_eq.1 h
      subst hxy
      simp only [h]
      rw [nibblesCmp_eq_eq]
      simp
    | lt =>
      have hxy : x < y := Nat.compare_eq_lt.1 h
      simp [h, Nat.ne_of_lt hxy]
    | gt =>
      have hxy : y < x := Nat.compare_eq_gt.1 h
      simp [h, (Nat.ne_of_lt hxy).symm]
  case StorageTrie.StorageTrie x y => exact Nat.compare_eq_eq

theorem trieKeyCmp_swap : ∀ (a b : TrieKey), trieKeyCmp b a = (trieKeyCmp a b).swap := by
  intro a b
  cases a <;> cases b <;> simp only [trieKeyCmp] <;> try rfl
  case AccountNode.AccountNode p q => exact nibblesCmp_swap p q
  case StorageNode.StorageNode x p y q =>
    rw [natCompare_swap x y]
    cases h : compare x y with
    | eq => exact nibblesCmp_swap p q
    | lt => rfl
    | gt => rfl
  case StorageTrie.StorageTrie x y => exact natCompare_swap x y

theorem trieKeyCmp_lt_trans :
    ∀ {a b c : TrieKey}, trieKeyCmp a b = .lt → trieKeyCmp b c = .lt → trieKeyCmp a c = .lt := by
  intro a b c h1 h2
  cases a <;> cases b <;> cases c <;> simp only [trieKeyCmp] at h1 h2 ⊢ <;>
    first
      | rfl
      | exact absurd h1 (by decide)
      | exact absurd h2 (by decide)
      | skip
  case AccountNode.AccountNode.AccountNode p q r =>
    exact nibblesCmp_lt_trans h1 h2
  case StorageNode.StorageNode.StorageNode x p y q z r =>
    cases hxy : compare x y with
    | gt => simp [hxy] at h1
    | eq =>
      have hxe : x = y := Nat.compare_eq_eq.1 hxy
      subst hxe
      simp only [hxy] at h1
      cases hyz : compare x z with
      | gt => simp [hyz] at h2
      | eq =>
        simp only [hyz] at h2
        simp only [hyz]
        exact nibblesCmp_lt_trans h1 h2
      | lt => simp [hyz]
    | lt =>
      cases hyz : compare y z with
      | gt => simp [hyz] at h2
      | eq =>
        have hye : y = z := Nat.compare_eq_eq.1 hyz
        subst hye
        simp [hxy]
      | lt => simp [natCompare_lt_trans hxy hyz]
  case StorageTrie.StorageTrie.StorageTrie x y z =>
    exact natCompare_lt_trans h1 h2

theorem trieKeyLe_total (a b : TrieKey) : trieKeyLe a b || trieKeyLe b a := by
  simp only [trieKeyLe, trieKeyCmp_swap a b]
  cases trieKeyCmp a b <;> simp [Ordering.swap]

theorem trieKeyLe_trans {a b c : TrieKey} (h1 : trieKeyLe a b) (h2 : trieKeyLe b c) :
    trieKeyLe a c := by
  simp only [trieKeyLe] at h1 h2 ⊢
  cases hab : trieKeyCmp a b with
  | gt => rw [hab] at h1; simp at h1
  | eq =>
    have hae : a = b := trieKeyCmp_eq_eq.1 hab
    subst hae
    exact h2
  | lt =>
    cases hbc : trieKeyCmp b c with
    | gt => rw [hbc] at h2; simp at h2
    | eq =>
      have hbe : b = c := trieKeyCmp_eq_eq.1 hbc
      subst hbe
      rw [hab]
    | lt => rw [trieKeyCmp_lt_trans hab hbc]

theorem trieKeyLt_of_le_of_ne {a b : TrieKey} (h1 : trieKeyLe a b) (h2 : a ≠ b) :
    trieKeyLt a b := by
  simp only [trieKeyLe] at h1
  simp only [trieKeyLt]
  cases hab : trieKeyCmp a b with
  | gt => rw [hab] at h1; simp at h1
  | eq => exact absurd (trieKeyCmp_eq_eq.1 hab) h2
  | lt => rfl

/-- Pending trie delta (updates.rs, struct TrieUpdates): a HashMap of TrieKey
to TrieOp, modelled as its list of key-value entries.  The HashMap guarantee
that keys are unique appears as a Nodup hypothesis where a theorem needs it. -/
structure TrieUpdates where
  trie_operations : List (TrieKey × TrieOp)
  deriving DecidableEq

/-- HashMap insert semantics used by extend: replace the value when the key
is already present (last write wins), otherwise add the entry. -/
def insertOp (l : List (TrieKey × TrieOp)) (k : TrieKey) (v : TrieOp) :
    List (TrieKey × TrieOp) :=
  if l.any (fun p => p.1 == k) then
    l.map (fun p => if p.1 = k then (k, v) else p)
  else
    l ++ [(k, v)]

/-- HashMap lookup over the entry list. -/
def lookupOp (l : List (TrieKey × TrieOp)) (k : TrieKey) : Option TrieOp :=
  (l.find? (fun p => p.1 == k)).map (fun p => p.2)

/-- TrieUpdates::extend: merge an iterable of entries, later entries
overwriting earlier ones for the same key. -/
def TrieUpdates.extend (u : TrieUpdates) (updates : List (TrieKey × TrieOp)) :
    TrieUpdates :=
  ⟨updates.foldl (fun l p => insertOp l p.1 p.2) u.trie_operations⟩

/-- TrieUpdates::extend_with_account_updates: wrap each path-node pair as an
AccountNode Update and extend. -/
def TrieUpdates.extend_with_account_updates (u : TrieUpdates)
    (updates : List (Nibbles × BranchNodeCompact)) : TrieUpdates :=
  u.extend (updates.map (fun p => (TrieKey.AccountNode p.1, TrieOp.Update p.2)))

/-- TrieUpdates::finalize_state_updates: merge walker deletions, then hash
builder account updates, then StorageTrie deletions for destroyed accounts.
The walker and hash builder collaborators are represented by the key sets
they surrender via split(). -/
def TrieUpdates.finalize_state_updates (u : TrieUpdates)
    (walkerDeletedKeys : List TrieKey)
    (hashBuilderUpdates : List (Nibbles × BranchNodeCompact))
    (destroyedAccounts : List B256) : TrieUpdates :=
  (((u.extend (walkerDeletedKeys.map (fun key => (key, TrieOp.Delete)))).extend_with_account_updates
        hashBuilderUpdates).extend
    (destroyedAccounts.map (fun key => (TrieKey.StorageTrie key, TrieOp.Delete))))

/-- Sorted snapshot of a pending delta (updates.rs, TrieUpdatesSorted). -/
structure TrieUpdatesSorted where
  trie_operations : List (TrieKey × TrieOp)
  deriving DecidableEq

/-- Entry order used for sorting: compare the TrieKey only (the source sorts
with sort_unstable_by on a.0.cmp(&b.0)). -/
def entryLe (a b : TrieKey × TrieOp) : Bool := trieKeyLe a.1 b.1

/-- TrieUpdates::sorted.  The source uses an unstable comparison sort; since
a HashMap has unique keys every comparison sort yields the same list, and we
model it with mergeSort. -/
def TrieUpdates.sorted (u : TrieUpdates) : TrieUpdatesSorted :=
  ⟨u.trie_operations.mergeSort entryLe⟩

/-- TrieUpdates::into_sorted (same result as sorted in this embedding). -/
def TrieUpdates.into_sorted (u : TrieUpdates) : TrieUpdatesSorted :=
  u.sorted

/-- TrieUpdatesSorted::find_account_node: first entry that is an AccountNode
at exactly the given path. -/
def TrieUpdatesSorted.find_account_node (tu : TrieUpdatesSorted) (key : Nibbles) :
    Option (TrieKey × TrieOp) :=
  tu.trie_operations.find? (fun p =>
    match p.1 with
    | TrieKey.AccountNode nibbles => nibbles == key
    | _ => false)

/-- TrieUpdatesSorted::find_storage_node: first entry that is a StorageNode
of the given account at exactly the given path. -/
def TrieUpdatesSorted.find_storage_node (tu : TrieUpdatesSorted)
    (hashed_address : B256) (key : Nibbles) : Option (TrieKey × TrieOp) :=
  tu.trie_operations.find? (fun p =>
    match p.1 with
    | TrieKey.StorageNode address nibbles => address == hashed_address && nibbles == key
    | _ => false)

theorem entryLe_trans (a b c : TrieKey × TrieOp) (h1 : entryLe a b) (h2 : entryLe b c) :
    entryLe a c :=
  trieKeyLe_trans h1 h2

theorem entryLe_total (a b : TrieKey × TrieOp) : entryLe a b || entryLe b a :=
  trieKeyLe_total a.1 b.1

/-- The two durable trie tables written by TrieUpdates::flush, modelled as
maps: the AccountsTrie table keyed by nibble path, and the StoragesTrie
duplicate-key table keyed by (hashed account, nibble subpath).  The storage
cursor operations of the external engine (seek_exact, seek_by_key_subkey,
delete_current, delete_current_duplicates, upsert) are modelled by their net
effect on these maps. -/
@[ext]
structure DurableState where
  accountsTrie : Nibbles → Option BranchNodeCompact
  storagesTrie : B256 → Nibbles → Option BranchNodeCompact

/-- One step of TrieUpdates::flush: the effect of a single (key, operation)
pair on the durable tables.  An Update on a StorageTrie key reaches the
source's unreachable macro and is modelled as failure (none). -/
def flushOp (s : DurableState) : TrieKey × TrieOp → Option DurableState
  | (TrieKey.AccountNode nibbles, TrieOp.Delete) =>
      some { s with
        accountsTrie := fun n => if n = nibbles then none else s.accountsTrie n }
  | (TrieKey.AccountNode nibbles, TrieOp.Update node) =>
      if nibbles.isEmpty then some s
      else some { s with
        accountsTrie := fun n => if n = nibbles then some node else s.accountsTrie n }
  | (TrieKey.StorageTrie hashed_address, TrieOp.Delete) =>
      some { s with
        storagesTrie := fun a =>
          if a = hashed_address then fun _ => none else s.storagesTrie a }
  | (TrieKey.StorageTrie _, TrieOp.Update _) => none
  | (TrieKey.StorageNode hashed_address nibbles, op) =>
      if nibbles.isEmpty then some s
      else some { s with
        storagesTrie := fun a =>
          if a = hashed_address then
            fun n => if n = nibbles then op.as_update else s.storagesTrie a n
          else s.storagesTrie a }

/-- Apply a list of operations in order, failing if any step fails. -/
def flushList : List (TrieKey × TrieOp) → DurableState → Option DurableState
  | [], s => some s
  | p :: rest, s =>
      match flushOp s p with
      | none => none
      | some t => flushList rest t

/-- TrieUpdates::flush: empty delta is a no-op, otherwise apply every
operation in sorted TrieKey order. -/
def TrieUpdates.flush (u : TrieUpdates) (s : DurableState) : Option DurableState :=
  if u.trie_operations.isEmpty then some s
  else flushList (u.trie_operations.mergeSort entryLe) s

/-- An operation flush can actually apply (everything except an Update on a
StorageTrie key, which is a contract violation). -/
def flushOpOk : TrieKey × TrieOp → Bool
  | (TrieKey.StorageTrie _, TrieOp.Update _) => false
  | _ => true

/-- A delta whose every operation flush can apply. -/
def flushOk (u : TrieUpdates) : Bool := u.trie_operations.all flushOpOk

/-- Total companion of flushOp used in proofs (identity on the failing case). -/
def applyOp (s : DurableState) (p : TrieKey × TrieOp) : DurableState :=
  match flushOp s p with
  | some t => t
  | none => s

/-- A single point of the two durable tables: an account-trie path or a
(storage account, subpath) pair. -/
def readPoint (s : DurableState) : Nibbles ⊕ (B256 × Nibbles) → Option BranchNodeCompact
  | Sum.inl n => s.accountsTrie n
  | Sum.inr (a, n) => s.storagesTrie a n

/-- A state transformer that, at every table point, either preserves the
input or writes a value independent of the input. -/
def WriteLike (f : DurableState → DurableState) : Prop :=
  ∀ q, (∀ s, readPoint (f s) q = readPoint s q) ∨ (∃ v, ∀ s, readPoint (f s) q = v)

theorem flushOp_eq_applyOp {p : TrieKey × TrieOp} (h : flushOpOk p = true)
    (s : DurableState) : flushOp s p = some (applyOp s p) := by
  obtain ⟨k, op⟩ := p
  cases k with
  | AccountNode nibbles =>
    cases op with
    | Delete => rfl
    | Update node =>
      simp only [flushOp, applyOp]
      by_cases he : nibbles.isEmpty <;> simp [he]
  | StorageNode address nibbles =>
    simp only [flushOp, applyOp]
    by_cases he : nibbles.isEmpty <;> simp [he]
  | StorageTrie address =>
    cases op with
    | Delete => rfl
    | Update node => simp [flushOpOk] at h

theorem applyOp_writeLike (p : TrieKey × TrieOp) : WriteLike (fun s => applyOp s p) := by
  obtain ⟨k, op⟩ := p
  intro q
  cases k with
  | AccountNode nibbles =>
    cases op with
    | Delete =>
      cases q with
      | inl n =>
        by_cases hn : n = nibbles
        · exact Or.inr ⟨none, fun s => by simp [applyOp, flushOp, readPoint, hn]⟩
        · exact Or.inl fun s => by simp [applyOp, flushOp, readPoint, hn]
      | inr an => exact Or.inl fun s => by simp [applyOp, flushOp, readPoint]
    | Update node =>
      by_cases he : nibbles.isEmpty
      · exact Or.inl fun s => by cases q <;> simp [applyOp, flushOp, readPoint, he]
      · cases q with
        | inl n =>
          by_cases hn : n = nibbles
          · exact Or.inr ⟨some node, fun s => by simp [applyOp, flushOp, readPoint, he, hn]⟩
          · exact Or.inl fun s => by simp [applyOp, flushOp, readPoint, he, hn]
        | inr an => exact Or.inl fun s => by simp [applyOp, flushOp, readPoint, he]
  | StorageNode address nibbles =>
    by_cases he : nibbles.isEmpty
    · exact Or.inl fun s => by cases q <;> simp [applyOp, flushOp, readPoint, he]
    · cases q with
      | inl n => exact Or.inl fun s => by simp [applyOp, flushOp, readPoint, he]
      | inr an =>
        obtain ⟨a, n⟩ := an
        by_cases ha : a = address
        · by_cases hn : n = nibbles
          · exact Or.inr ⟨op.as_update, fun s => by
              simp [applyOp, flushOp, readPoint, he, ha, hn]⟩
          · exact Or.inl fun s => by simp [applyOp, flushOp, readPoint, he, ha, hn]
        · exact Or.inl fun s => by simp [applyOp, flushOp, readPoint, he, ha]
  | StorageTrie address =>
    cases op with
    | Delete =>
      cases q with
      | inl n => exact Or.inl fun s => by simp [applyOp, flushOp, readPoint]
      | inr an =>
        obtain ⟨a, n⟩ := an
        by_cases ha : a = address
        · exact Or.inr ⟨none, fun s => by simp [applyOp, flushOp, readPoint, ha]⟩
        · exact Or.inl fun s => by simp [applyOp, flushOp, readPoint, ha]
    | Update node =>
      exact Or.inl fun s => by cases q <;> simp [applyOp, flushOp, readPoint]

theorem foldl_applyOp_writeLike (ops : List (TrieKey × TrieOp)) :
    WriteLike (fun s => ops.foldl applyOp s) := by
  induction ops with
  | nil => exact fun q => Or.inl fun s => rfl
  | cons p rest ih =>
    intro q
    rcases ih q with hid | ⟨v, hv⟩
    · rcases applyOp_writeLike p q with hid2 | ⟨w, hw⟩
      · exact Or.inl fun s => by
          simpa using (hid (applyOp s p)).trans (hid2 s)
      · exact Or.inr ⟨w, fun s => by
          simpa using (hid (applyOp s p)).trans (hw s)⟩
    · exact Or.inr ⟨v, fun s => by simpa using hv (applyOp s p)⟩

theorem writeLike_idem {f : DurableState → DurableState} (h : WriteLike f)
    (s : DurableState) : f (f s) = f s := by
  have hp : ∀ q, readPoint (f (f s)) q = readPoint (f s) q := by
    intro q
    rcases h q with hid | ⟨v, hv⟩
    · exact hid (f s)
    · rw [hv (f s), hv s]
  have ha : (f (f s)).accountsTrie = (f s).accountsTrie :=
    funext fun n => hp (Sum.inl n)
  have hs2 : (f (f s)).storagesTrie = (f s).storagesTrie :=
    funext fun a => funext fun n => hp (Sum.inr (a, n))
  exact DurableState.ext ha hs2

theorem flushList_eq_foldl (ops : List (TrieKey × TrieOp))
    (hok : ∀ p ∈ ops, flushOpOk p = true) (s : DurableState) :
    flushList ops s = some (ops.foldl applyOp s) := by
  induction ops generalizing s with
  | nil => rfl
  | cons p rest ih =>
    have hp : flushOpOk p = true := hok p (List.mem_cons_self p rest)
    simp only [flushList, flushOp_eq_applyOp hp, List.foldl_cons]
    exact ih (fun q hq => hok q (List.mem_cons_of_mem p hq)) (applyOp s p)

/-- C6: for every TrieUpdates value whose operations flush can apply (no
Update on a StorageTrie key) and every initial durable table state, flushing
twice from that state yields the same final durable state as flushing once:
deletes of already-absent keys are no-ops and updates overwrite with
identical values. -/
theorem flush_idempotent (u : TrieUpdates) (s : DurableState)
    (h : flushOk u = true) :
    ∃ s2, u.flush s = some s2 ∧ u.flush s2 = some s2 := by
  by_cases he : u.trie_operations.isEmpty
  · exact ⟨s, by simp [TrieUpdates.flush, he], by simp [TrieUpdates.flush, he]⟩
  · have hok : ∀ p ∈ u.trie_operations.mergeSort entryLe, flushOpOk p = true := by
      intro p hp
      have hmem : p ∈ u.trie_operations := List.mem_mergeSort.1 hp
      exact List.all_eq_true.1 h p hmem
    refine ⟨(u.trie_operations.mergeSort entryLe).foldl applyOp s, ?_, ?_⟩
    · simp only [TrieUpdates.flush, he, if_false]
      exact flushList_eq_foldl _ hok s
    · simp only [TrieUpdates.flush, he, if_false]
      rw [flushList_eq_foldl _ hok]
      exact congrArg some
        (writeLike_idem (foldl_applyOp_writeLike (u.trie_operations.mergeSort entryLe)) s)

/-- A small concrete delta and an empty durable state used by witnesses. -/
def exampleUpdates : TrieUpdates :=
  ⟨[(TrieKey.AccountNode [1, 2], TrieOp.Update ⟨7⟩),
    (TrieKey.StorageNode 3 [4], TrieOp.Update ⟨8⟩),
    (TrieKey.StorageTrie 3, TrieOp.Delete),
    (TrieKey.AccountNode [0], TrieOp.Delete)]⟩

def exampleState : DurableState :=
  ⟨fun _ => none, fun _ _ => none⟩

theorem flush_idempotent_witness :
    flushOk exampleUpdates = true ∧
      ∃ s2, exampleUpdates.flush exampleState = some s2 ∧
        exampleUpdates.flush s2 = some s2 :=
  ⟨by decide, flush_idempotent exampleUpdates exampleState (by decide)⟩

/-- C7: for every TrieUpdates value with unique keys (the HashMap invariant),
sorted().trie_operations is strictly increasing under the TrieKey total order
(variant discriminant first, then account, then path) and is a permutation of
the delta's entries: no entry is lost and none is duplicated. -/
theorem sorted_strict_increasing_and_perm (u : TrieUpdates)
    (h : (u.trie_operations.map Prod.fst).Nodup) :
    List.Pairwise (fun a b : TrieKey × TrieOp => trieKeyLt a.1 b.1 = true)
        u.sorted.trie_operations ∧
      u.sorted.trie_operations.Perm u.trie_operations := by
  have hperm : u.sorted.trie_operations.Perm u.trie_operations :=
    List.mergeSort_perm u.trie_operations entryLe
  refine ⟨?_, hperm⟩
  have hle : List.Pairwise (fun a b => entryLe a b = true) u.sorted.trie_operations :=
    List.sorted_mergeSort entryLe_trans entryLe_total u.trie_operations
  have hn : (u.sorted.trie_operations.map Prod.fst).Nodup :=
    (hperm.map Prod.fst).symm.nodup h
  have hne : List.Pairwise (fun a b : TrieKey × TrieOp => a.1 ≠ b.1)
      u.sorted.trie_operations :=
    List.pairwise_map.1 hn
  exact (hle.and hne).imp fun hab => trieKeyLt_of_le_of_ne hab.1 hab.2

theorem sorted_strict_increasing_and_perm_witness :
    (exampleUpdates.trie_operations.map Prod.fst).Nodup ∧
      (List.Pairwise (fun a b : TrieKey × TrieOp => trieKeyLt a.1 b.1 = true)
          exampleUpdates.sorted.trie_operations ∧
        exampleUpdates.sorted.trie_operations.Perm exampleUpdates.trie_operations) :=
  ⟨by decide, sorted_strict_increasing_and_perm exampleUpdates (by decide)⟩

theorem mem_insertOp_self (l : List (TrieKey × TrieOp)) (k : TrieKey) (v : TrieOp) :
    (k, v) ∈ insertOp l k v := by
  simp only [insertOp]
  by_cases hany : l.any (fun p => p.1 == k) = true
  · simp only [hany, if_true]
    obtain ⟨p, hp, hpk⟩ := List.any_eq_true.mp hany
    exact List.mem_map.2 ⟨p, hp, by simp [beq_iff_eq.mp hpk]⟩
  · simp [hany]

theorem mem_insertOp_preserve {l : List (TrieKey × TrieOp)} {k0 : TrieKey} {v0 : TrieOp}
    (hmem : (k0, v0) ∈ l) (k : TrieKey) (v : TrieOp) (hcond : k = k0 → v = v0) :
    (k0, v0) ∈ insertOp l k v := by
  simp only [insertOp]
  by_cases hany : l.any (fun p => p.1 == k) = true
  · simp only [hany, if_true]
    refine List.mem_map.2 ⟨(k0, v0), hmem, ?_⟩
    by_cases hk : k0 = k
    · subst hk
      simp [hcond rfl]
    · simp [hk]
  · simp only [hany]
    simp only [Bool.false_eq_true, if_false]
    exact List.mem_append_left _ hmem

theorem mem_foldl_destroyed (da : List B256) (A : B256)
    (l : List (TrieKey × TrieOp))
    (h : A ∈ da ∨ (TrieKey.StorageTrie A, TrieOp.Delete) ∈ l) :
    (TrieKey.StorageTrie A, TrieOp.Delete) ∈
      (da.map (fun key => (TrieKey.StorageTrie key, TrieOp.Delete))).foldl
        (fun l p => insertOp l p.1 p.2) l := by
  induction da generalizing l with
  | nil =>
    simpa using h.resolve_left (by simp)
  | cons a rest ih =>
    simp only [List.map_cons, List.foldl_cons]
    rcases h with hmem | hmem
    · rcases List.mem_cons.mp hmem with rfl | hA
      · exact ih _ (Or.inr (mem_insertOp_self l _ _))
      · exact ih _ (Or.inl hA)
    · refine ih _ (Or.inr ?_)
      exact mem_insertOp_preserve hmem _ _ (fun _ => rfl)

theorem le_storageTrie {A : B256} {k : TrieKey}
    (h : trieKeyLe (TrieKey.StorageTrie A) k = true) :
    ∃ b, k = TrieKey.StorageTrie b := by
  cases k with
  | AccountNode p => simp [trieKeyLe, trieKeyCmp] at h
  | StorageNode b p => simp [trieKeyLe, trieKeyCmp] at h
  | StorageTrie b => exact ⟨b, rfl⟩

theorem flushList_preserve (A : B256) (ops : List (TrieKey × TrieOp))
    (s s2 : DurableState)
    (hsafe : ∀ p ∈ ops, ∃ b, p.1 = TrieKey.StorageTrie b)
    (hrun : flushList ops s = some s2)
    (hP : ∀ n, s.storagesTrie A n = none) :
    ∀ n, s2.storagesTrie A n = none := by
  induction ops generalizing s with
  | nil =>
    simp only [flushList, Option.some.injEq] at hrun
    exact hrun ▸ hP
  | cons p rest ih =>
    obtain ⟨k, op⟩ := p
    obtain ⟨b, hb⟩ := hsafe (k, op) (List.mem_cons_self _ _)
    simp only at hb
    subst hb
    cases op with
    | Update node => simp [flushList, flushOp] at hrun
    | Delete =>
      simp only [flushList, flushOp] at hrun
      refine ih _ (fun q hq => hsafe q (List.mem_cons_of_mem _ hq)) hrun ?_
      intro n
      by_cases hA : A = b <;> simp [hA, hP n]

theorem flushList_mem_storageTrieDelete (A : B256) (ops : List (TrieKey × TrieOp))
    (s s2 : DurableState)
    (hmem : (TrieKey.StorageTrie A, TrieOp.Delete) ∈ ops)
    (hsorted : List.Pairwise (fun a b => entryLe a b = true) ops)
    (hrun : flushList ops s = some s2) :
    ∀ n, s2.storagesTrie A n = none := by
  induction ops generalizing s with
  | nil => simp at hmem
  | cons p rest ih =>
    rcases List.mem_cons.mp hmem with rfl | hmem2
    · simp only [flushList, flushOp] at hrun
      have hsafe : ∀ q ∈ rest, ∃ b, q.1 = TrieKey.StorageTrie b := by
        intro q hq
        exact le_storageTrie ((List.pairwise_cons.mp hsorted).1 q hq)
      refine flushList_preserve A rest _ s2 hsafe hrun ?_
      intro n
      simp
    · cases hs : flushOp s p with
      | none => simp [flushList, hs] at hrun
      | some t =>
        simp only [flushList, hs] at hrun
        exact ih _ hmem2 (List.pairwise_cons.mp hsorted).2 hrun

/-- C8: in a batch where an account both has individual storage-node
modifications (present in the delta) and is in the destroyed-accounts set,
finalize_state_updates merges walker deletions, then hash-builder updates,
then destroyed-account StorageTrie deletions, and flushing the resulting
delta leaves no durable storage-trie entries for that account: the
whole-trie destruction, sorting after every StorageNode entry, wins over
the same batch's individual modifications. -/
theorem destroyed_account_storage_cleared (u : TrieUpdates)
    (walkerDeletedKeys : List TrieKey)
    (hashBuilderUpdates : List (Nibbles × BranchNodeCompact))
    (destroyedAccounts : List B256) (A : B256) (s : DurableState)
    (hA : A ∈ destroyedAccounts)
    (hok : flushOk (u.finalize_state_updates walkerDeletedKeys hashBuilderUpdates
        destroyedAccounts) = true) :
    ∃ s2,
      (u.finalize_state_updates walkerDeletedKeys hashBuilderUpdates
          destroyedAccounts).flush s = some s2 ∧
        ∀ n, s2.storagesTrie A n = none := by
  set uf := u.finalize_state_updates walkerDeletedKeys hashBuilderUpdates destroyedAccounts
    with huf
  have hmem : (TrieKey.StorageTrie A, TrieOp.Delete) ∈ uf.trie_operations := by
    rw [huf]
    simp only [TrieUpdates.finalize_state_updates, TrieUpdates.extend]
    exact mem_foldl_destroyed destroyedAccounts A _ (Or.inl hA)
  have hne : uf.trie_operations.isEmpty = false := by
    cases h : uf.trie_operations with
    | nil => rw [h] at hmem; simp at hmem
    | cons q rest => rfl
  have hsortmem : (TrieKey.StorageTrie A, TrieOp.Delete) ∈
      uf.trie_operations.mergeSort entryLe := List.mem_mergeSort.2 hmem
  have hsorted : List.Pairwise (fun a b => entryLe a b = true)
      (uf.trie_operations.mergeSort entryLe) :=
    List.sorted_mergeSort entryLe_trans entryLe_total uf.trie_operations
  have hokall : ∀ p ∈ uf.trie_operations.mergeSort entryLe, flushOpOk p = true := by
    intro p hp
    exact List.all_eq_true.1 hok p (List.mem_mergeSort.1 hp)
  refine ⟨(uf.trie_operations.mergeSort entryLe).foldl applyOp s, ?_, ?_⟩
  · simp only [TrieUpdates.flush, hne, Bool.false_eq_true, if_false]
    exact flushList_eq_foldl _ hokall s
  · exact flushList_mem_storageTrieDelete A _ s _ hsortmem hsorted
      (flushList_eq_foldl _ hokall s)

/-- Concrete batch for the C8 witness: account 5 has an individual
storage-node update in the same batch in which it is destroyed. -/
def destroyedExampleUpdates : TrieUpdates :=
  ⟨[(TrieKey.StorageNode 5 [1], TrieOp.Update ⟨3⟩)]⟩

theorem destroyed_account_storage_cleared_witness :
    (5 : B256) ∈ [(5 : B256)] ∧
      flushOk (destroyedExampleUpdates.finalize_state_updates [] [] [5]) = true ∧
      ∃ s2,
        (destroyedExampleUpdates.finalize_state_updates [] [] [5]).flush
            exampleState = some s2 ∧
          ∀ n, s2.storagesTrie 5 n = none :=
  ⟨by decide, by decide,
    destroyed_account_storage_cleared destroyedExampleUpdates [] [] [5] 5 exampleState
      (by decide) (by decide)⟩

/-- Durable account-trie cursor wrapped by the overlay (the abstract
TrieCursor over the AccountsTrie table, provided by the external storage
engine): an ordered table of (path, node) entries plus the cursor position.
With entries sorted ascending by path, seek returns the first entry at or
after the key and seek_exact the exact entry. -/
structure AccDurableCursor where
  entries : List (Nibbles × BranchNodeCompact)
  currentKey : Option TrieKey
  deriving DecidableEq

def AccDurableCursor.seek_exact (c : AccDurableCursor) (key : Nibbles) :
    AccDurableCursor × Option (Nibbles × BranchNodeCompact) :=
  match c.entries.find? (fun e => e.1 == key) with
  | some e => ({ c with currentKey := some (TrieKey.AccountNode e.1) }, some e)
  | none => ({ c with currentKey := none }, none)

def AccDurableCursor.seek (c : AccDurableCursor) (key : Nibbles) :
    AccDurableCursor × Option (Nibbles × BranchNodeCompact) :=
  match c.entries.find? (fun e => nibblesLe key e.1) with
  | some e => ({ c with currentKey := some (TrieKey.AccountNode e.1) }, some e)
  | none => ({ c with currentKey := none }, none)

/-- Durable storage-trie cursor scoped to one hashed account (the abstract
TrieCursor over that account's StoragesTrie subtable). -/
structure StoDurableCursor where
  hashed_address : B256
  entries : List (Nibbles × BranchNodeCompact)
  currentKey : Option TrieKey
  deriving DecidableEq

def StoDurableCursor.seek_exact (c : StoDurableCursor) (key : Nibbles) :
    StoDurableCursor × Option (Nibbles × BranchNodeCompact) :=
  match c.entries.find? (fun e => e.1 == key) with
  | some e =>
      ({ c with currentKey := some (TrieKey.StorageNode c.hashed_address e.1) }, some e)
  | none => ({ c with currentKey := none }, none)

def StoDurableCursor.seek (c : StoDurableCursor) (key : Nibbles) :
    StoDurableCursor × Option (Nibbles × BranchNodeCompact) :=
  match c.entries.find? (fun e => nibblesLe key e.1) with
  | some e =>
      ({ c with currentKey := some (TrieKey.StorageNode c.hashed_address e.1) }, some e)
  | none => ({ c with currentKey := none }, none)

/-- In-memory overlay account-trie cursor (in_memory.rs,
InMemoryAccountTrieCursor): gives precedence to the pending sorted delta. -/
structure InMemoryAccountTrieCursor where
  cursor : AccDurableCursor
  trie_updates : TrieUpdatesSorted
  last_key : Option TrieKey
  deriving DecidableEq

def InMemoryAccountTrieCursor.seek_exact (c : InMemoryAccountTrieCursor)
    (key : Nibbles) : InMemoryAccountTrieCursor × Option (Nibbles × BranchNodeCompact) :=
  match c.trie_updates.find_account_node key with
  | some (trie_key, trie_op) =>
      ({ c with last_key := some trie_key },
        trie_op.into_update.map (fun node => (key, node)))
  | none =>
      let res := c.cursor.seek_exact key
      ({ c with
          cursor := res.1
          last_key := res.2.map (fun p => TrieKey.AccountNode p.1) }, res.2)

/-- in_memory.rs account seek: the source takes the first pending AccountNode
entry whose path satisfies nibbles LESS-OR-EQUAL key (sic), and only when no
pending entry qualifies does it delegate to the durable cursor.  The inner
unreachable panic on a non-AccountNode key is modelled by an arbitrary path;
the find predicate makes it unreachable. -/
def InMemoryAccountTrieCursor.seek (c : InMemoryAccountTrieCursor)
    (key : Nibbles) : InMemoryAccountTrieCursor × Option (Nibbles × BranchNodeCompact) :=
  match c.trie_updates.trie_operations.find? (fun p =>
      match p.1 with
      | TrieKey.AccountNode nibbles => nibblesLe nibbles key
      | _ => false) with
  | some (trie_key, trie_op) =>
      let nibbles := match trie_key with
        | TrieKey.AccountNode nibbles => nibbles
        | _ => []
      ({ c with last_key := some trie_key },
        trie_op.into_update.map (fun node => (nibbles, node)))
  | none =>
      let res := c.cursor.seek key
      ({ c with
          cursor := res.1
          last_key := res.2.map (fun p => TrieKey.AccountNode p.1) }, res.2)

def InMemoryAccountTrieCursor.current (c : InMemoryAccountTrieCursor) : Option TrieKey :=
  match c.last_key with
  | some k => some k
  | none => c.cursor.currentKey

/-- In-memory overlay storage-trie cursor (in_memory.rs,
InMemoryStorageTrieCursor), scoped to one hashed account but holding the
whole shared sorted delta plus a scan-position index into it. -/
structure InMemoryStorageTrieCursor where
  cursor : StoDurableCursor
  trie_update_index : Nat
  trie_updates : TrieUpdatesSorted
  hashed_address : B256
  last_key : Option TrieKey
  deriving DecidableEq

def InMemoryStorageTrieCursor.seek_exact (c : InMemoryStorageTrieCursor)
    (key : Nibbles) : InMemoryStorageTrieCursor × Option (Nibbles × BranchNodeCompact) :=
  match c.trie_updates.find_storage_node c.hashed_address key with
  | some (trie_key, trie_op) =>
      ({ c with last_key := some trie_key },
        trie_op.into_update.map (fun node => (key, node)))
  | none =>
      let res := c.cursor.seek_exact key
      ({ c with
          cursor := res.1
          last_key := res.2.map (fun p => TrieKey.StorageNode c.hashed_address p.1) },
        res.2)

/-- The while loop of the storage seek: the number of consecutive entries,
from the current scan position on, that are StorageNodes of this cursor's
account with path strictly below the key (the source advances
trie_update_index over exactly these). -/
def skipCount (addr : B256) (key : Nibbles) : List (TrieKey × TrieOp) → Nat
  | [] => 0
  | p :: rest =>
      match p.1 with
      | TrieKey.StorageNode address nibbles =>
          if address == addr && nibblesLt nibbles key then 1 + skipCount addr key rest
          else 0
      | _ => 0

/-- in_memory.rs storage seek: advance the index over own-account entries
below the key, then return the entry at the stopped position whenever it is
a StorageNode — of any account (sic) — and otherwise delegate to the durable
cursor.  The index is never reset backwards. -/
def InMemoryStorageTrieCursor.seek (c : InMemoryStorageTrieCursor)
    (key : Nibbles) : InMemoryStorageTrieCursor × Option (Nibbles × BranchNodeCompact) :=
  let i := c.trie_update_index +
    skipCount c.hashed_address key (c.trie_updates.trie_operations.drop c.trie_update_index)
  match c.trie_updates.trie_operations[i]? with
  | some (TrieKey.StorageNode address nibbles, trie_op) =>
      ({ c with
          trie_update_index := i
          last_key := some (TrieKey.StorageNode address nibbles) },
        trie_op.as_update.map (fun node => (nibbles, node)))
  | some (_, _) =>
      let res := c.cursor.seek key
      ({ c with
          trie_update_index := i
          cursor := res.1
          last_key := res.2.map (fun p => TrieKey.StorageNode c.hashed_address p.1) },
        res.2)
  | none =>
      let res := c.cursor.seek key
      ({ c with
          trie_update_index := i
          cursor := res.1
          last_key := res.2.map (fun p => TrieKey.StorageNode c.hashed_address p.1) },
        res.2)

def InMemoryStorageTrieCursor.current (c : InMemoryStorageTrieCursor) : Option TrieKey :=
  match c.last_key with
  | some k => some k
  | none => c.cursor.currentKey

theorem find_account_node_key {tu : TrieUpdatesSorted} {K : Nibbles}
    {tk : TrieKey} {op : TrieOp}
    (h : tu.find_account_node K = some (tk, op)) : tk = TrieKey.AccountNode K := by
  simp only [TrieUpdatesSorted.find_account_node] at h
  have hp := List.find?_some h
  cases tk with
  | AccountNode n =>
    simp only at hp
    exact congrArg TrieKey.AccountNode (by simpa using hp)
  | StorageNode a n => simp at hp
  | StorageTrie a => simp at hp

theorem find_storage_node_key {tu : TrieUpdatesSorted} {addr : B256} {K : Nibbles}
    {tk : TrieKey} {op : TrieOp}
    (h : tu.find_storage_node addr K = some (tk, op)) :
    tk = TrieKey.StorageNode addr K := by
  simp only [TrieUpdatesSorted.find_storage_node] at h
  have hp := List.find?_some h
  cases tk with
  | AccountNode n => simp at hp
  | StorageNode a n =>
    simp only [Bool.and_eq_true, beq_iff_eq] at hp
    rw [hp.1, hp.2]
  | StorageTrie a => simp at hp

/-- C2: on both overlay cursors, seek_exact gives the pending delta
precedence: a pending Update at the key yields its node, a pending Delete
yields not-found even though the durable table may still hold the key, and a
key absent from the pending delta yields exactly the durable cursor's
seek_exact result. -/
theorem seek_exact_overlay_precedence (ca : InMemoryAccountTrieCursor)
    (cs : InMemoryStorageTrieCursor) (K : Nibbles) :
    (∀ tk b, ca.trie_updates.find_account_node K = some (tk, TrieOp.Update b) →
        (ca.seek_exact K).2 = some (K, b)) ∧
      (∀ tk, ca.trie_updates.find_account_node K = some (tk, TrieOp.Delete) →
        (ca.seek_exact K).2 = none) ∧
      (ca.trie_updates.find_account_node K = none →
        (ca.seek_exact K).2 = (ca.cursor.seek_exact K).2) ∧
      (∀ tk b, cs.trie_updates.find_storage_node cs.hashed_address K =
          some (tk, TrieOp.Update b) →
        (cs.seek_exact K).2 = some (K, b)) ∧
      (∀ tk, cs.trie_updates.find_storage_node cs.hashed_address K =
          some (tk, TrieOp.Delete) →
        (cs.seek_exact K).2 = none) ∧
      (cs.trie_updates.find_storage_node cs.hashed_address K = none →
        (cs.seek_exact K).2 = (cs.cursor.seek_exact K).2) := by
  refine ⟨?_, ?_, ?_, ?_, ?_, ?_⟩
  · intro tk b h
    simp [InMemoryAccountTrieCursor.seek_exact, h, TrieOp.into_update]
  · intro tk h
    simp [InMemoryAccountTrieCursor.seek_exact, h, TrieOp.into_update]
  · intro h
    simp [InMemoryAccountTrieCursor.seek_exact, h]
  · intro tk b h
    simp [InMemoryStorageTrieCursor.seek_exact, h, TrieOp.into_update]
  · intro tk h
    simp [InMemoryStorageTrieCursor.seek_exact, h, TrieOp.into_update]
  · intro h
    simp [InMemoryStorageTrieCursor.seek_exact, h]

/-- Pending delta holding tombstones, shared by the cursor examples. -/
def tombstoneUpdates : TrieUpdatesSorted :=
  ⟨[(TrieKey.AccountNode [1], TrieOp.Delete),
    (TrieKey.StorageNode 2 [3], TrieOp.Delete)]⟩

/-- Example overlay account cursor whose durable table still holds the
tombstoned path. -/
def accCursorExample : InMemoryAccountTrieCursor :=
  ⟨⟨[([1], ⟨9⟩)], none⟩, tombstoneUpdates, none⟩

/-- Example overlay storage cursor for account 2 whose durable subtable
still holds the tombstoned path. -/
def stoCursorExample : InMemoryStorageTrieCursor :=
  ⟨⟨2, [([3], ⟨9⟩)], none⟩, 0, tombstoneUpdates, 2, none⟩

theorem seek_exact_overlay_precedence_witness :
    accCursorExample.trie_updates.find_account_node [1] =
        some (TrieKey.AccountNode [1], TrieOp.Delete) ∧
      (accCursorExample.seek_exact [1]).2 = none ∧
      (stoCursorExample.seek_exact [3]).2 = none :=
  ⟨by decide,
    (seek_exact_overlay_precedence accCursorExample stoCursorExample [1]).2.1
      (TrieKey.AccountNode [1]) (by decide),
    (seek_exact_overlay_precedence accCursorExample stoCursorExample [3]).2.2.2.2.1
      (TrieKey.StorageNode 2 [3]) (by decide)⟩

/-- C10: when the pending delta holds Delete(K), seek_exact(K) on an overlay
cursor returns not-found, and a subsequent current() returns the tombstoned
key itself (wrapped as this cursor's TrieKey variant), not none and not the
durable cursor's position. -/
theorem tombstone_current_reports_key (ca : InMemoryAccountTrieCursor)
    (cs : InMemoryStorageTrieCursor) (K : Nibbles) :
    (∀ tk, ca.trie_updates.find_account_node K = some (tk, TrieOp.Delete) →
        (ca.seek_exact K).2 = none ∧
          (ca.seek_exact K).1.current = some (TrieKey.AccountNode K)) ∧
      (∀ tk, cs.trie_updates.find_storage_node cs.hashed_address K =
          some (tk, TrieOp.Delete) →
        (cs.seek_exact K).2 = none ∧
          (cs.seek_exact K).1.current =
            some (TrieKey.StorageNode cs.hashed_address K)) := by
  constructor
  · intro tk h
    have hk := find_account_node_key h
    subst hk
    constructor
    · simp [InMemoryAccountTrieCursor.seek_exact, h, TrieOp.into_update]
    · simp [InMemoryAccountTrieCursor.seek_exact, h,
        InMemoryAccountTrieCursor.current]
  · intro tk h
    have hk := find_storage_node_key h
    subst hk
    constructor
    · simp [InMemoryStorageTrieCursor.seek_exact, h, TrieOp.into_update]
    · simp [InMemoryStorageTrieCursor.seek_exact, h,
        InMemoryStorageTrieCursor.current]

theorem tombstone_current_reports_key_witness :
    ((accCursorExample.seek_exact [1]).2 = none ∧
        (accCursorExample.seek_exact [1]).1.current =
          some (TrieKey.AccountNode [1])) ∧
      ((stoCursorExample.seek_exact [3]).2 = none ∧
        (stoCursorExample.seek_exact [3]).1.current =
          some (TrieKey.StorageNode 2 [3])) :=
  ⟨(tombstone_current_reports_key accCursorExample stoCursorExample [1]).1
      (TrieKey.AccountNode [1]) (by decide),
    (tombstone_current_reports_key accCursorExample stoCursorExample [3]).2
      (TrieKey.StorageNode 2 [3]) (by decide)⟩

/-- Pending delta for the C1 counterexample: Update at path [2], tombstone
at path [4] (sorted). -/
def forwardScanUpdates : TrieUpdatesSorted :=
  ⟨[(TrieKey.AccountNode [2], TrieOp.Update ⟨2⟩),
    (TrieKey.AccountNode [4], TrieOp.Delete)]⟩

/-- Durable account-trie table with entries at paths [1], [3], [5]. -/
def forwardScanDurable : AccDurableCursor :=
  ⟨[([1], ⟨1⟩), ([3], ⟨3⟩), ([5], ⟨5⟩)], none⟩

def forwardScanCursor : InMemoryAccountTrieCursor :=
  ⟨forwardScanDurable, forwardScanUpdates, none⟩

/-- Overlay cursor whose pending delta holds only the tombstone at [4]. -/
def tombOnlyCursor : InMemoryAccountTrieCursor :=
  ⟨forwardScanDurable, ⟨[(TrieKey.AccountNode [4], TrieOp.Delete)]⟩, none⟩

/-- C1 counterexample: with durable entries at paths [1],[3],[5] and a
pending Update at [2], seek([3]) on the overlay account cursor returns the
pending entry at path [2] — a key strictly below the search key, where the
merged-order contract requires the durable entry at [3] — and with only the
tombstone at [4] pending, seek([4]) returns not-found instead of skipping
the tombstoned key and surfacing the durable entry at [5]. -/
theorem seek_returns_key_below_search :
    (forwardScanCursor.seek [3]).2 = some ([2], ⟨2⟩) ∧
      nibblesLt [2] [3] = true ∧
      (tombOnlyCursor.seek [4]).2 = none :=
  ⟨by decide, by decide, by decide⟩

/-- Shared sorted delta holding a pending storage entry of account 0 only. -/
def foreignOnlyUpdates : TrieUpdatesSorted :=
  ⟨[(TrieKey.StorageNode 0 [7], TrieOp.Update ⟨9⟩)]⟩

/-- Overlay storage cursor scoped to account 1 over that delta. -/
def foreignStorageCursor : InMemoryStorageTrieCursor :=
  ⟨⟨1, [], none⟩, 0, foreignOnlyUpdates, 1, none⟩

/-- Shared sorted delta holding a pending entry of the cursor's own
account 1 at path [2]. -/
def ownEntryUpdates : TrieUpdatesSorted :=
  ⟨[(TrieKey.StorageNode 1 [2], TrieOp.Update ⟨2⟩)]⟩

def ownEntryStorageCursor : InMemoryStorageTrieCursor :=
  ⟨⟨1, [], none⟩, 0, ownEntryUpdates, 1, none⟩

/-- C5 counterexample: first, a pending StorageNode entry belonging to
account 0 is surfaced by the storage cursor scoped to account 1 (the
post-loop filter checks only the key variant, never the address); second,
after seek([5]) advanced the scan index past the cursor's own pending entry
at [2], a later seek([1]) — a backward seek — misses that entry (which is
at or after [1]) and returns not-found because the index is never reset. -/
theorem storage_seek_wrong_account_and_missed_entry :
    (foreignStorageCursor.seek [0]).2 = some ([7], ⟨9⟩) ∧
      ((ownEntryStorageCursor.seek [5]).1.seek [1]).2 = none :=
  ⟨by decide, by decide⟩

/-- Abstract storage-level failure returned by the transactional provider
(persistence.rs works against fallible provider calls). -/
inductive DbError where
  | storage (code : Nat)
  deriving DecidableEq

/-- An executed, not-yet-durable block; only the fields the persistence
claims observe (number and hash) are modelled, the payload is opaque. -/
structure ExecutedBlock where
  number : Nat
  hash : Nat
  deriving DecidableEq

/-- The transactional provider consumed by Persistence::write: each durable
primitive is fallible and composes within one transaction. -/
structure Provider where
  providerRw : Except DbError Unit
  insertBlock : ExecutedBlock → Except DbError Unit
  writeExecutionOutcome : ExecutedBlock → Except DbError Unit
  writeHashedStateChanges : ExecutedBlock → Except DbError Unit
  flushTrieUpdates : ExecutedBlock → Except DbError Unit
  updateHistoryIndices : Nat → Nat → Except DbError Unit
  updatePipelineStages : Nat → Except DbError Unit

/-- The per-block body of the loop in Persistence::write (persistence.rs):
insert the block, write state, write hashed state, flush trie updates,
update history indices over the whole range, advance the checkpoint. -/
def writeLoop (p : Provider) (first last_ : Nat) :
    List ExecutedBlock → Except DbError Unit
  | [] => Except.ok ()
  | b :: rest => do
    p.insertBlock b
    p.writeExecutionOutcome b
    p.writeHashedStateChanges b
    p.flushTrieUpdates b
    p.updateHistoryIndices first last_
    p.updatePipelineStages last_
    writeLoop p first last_ rest

/-- Persistence::write: open the rw provider, return Ok on an empty range,
otherwise run the loop over all blocks. -/
def Persistence.write (p : Provider) (blocks : List ExecutedBlock) :
    Except DbError Unit := do
  p.providerRw
  if blocks.isEmpty then
    return ()
  else
    match blocks.head?, blocks.getLast? with
    | some first, some last_ => writeLoop p first.number last_.number blocks
    | _, _ => return ()

/-- A persistence request (persistence.rs, enum PersistenceAction); the
one-shot reply channels are modelled by the step outcome below. -/
inductive PersistenceAction where
  | SaveBlocks (blocks : List ExecutedBlock)
  | RemoveBlocksAbove (blockNumber : Nat)
  deriving DecidableEq

/-- What one iteration of the actor loop does with a request: either a reply
is sent and the loop continues, or the thread panics and the loop — and with
it the actor — terminates. -/
inductive StepOutcome where
  | panicked
  | sentSaveReply (hash : Nat)
  | sentRemoveReply (blocks : List ExecutedBlock)
  deriving DecidableEq

/-- One iteration of Persistence::run (persistence.rs): RemoveBlocksAbove
calls remove_blocks_above, whose body is the todo macro (panic); SaveBlocks
hits the todo macro on an empty batch, and otherwise unwraps the write
result — panicking on any storage error — before replying with the last
block's hash. -/
def Persistence.runStep (p : Provider) : PersistenceAction → StepOutcome
  | PersistenceAction.RemoveBlocksAbove _ => StepOutcome.panicked
  | PersistenceAction.SaveBlocks blocks =>
      if blocks.isEmpty then StepOutcome.panicked
      else
        match blocks.getLast? with
        | none => StepOutcome.panicked
        | some last_ =>
            match Persistence.write p blocks with
            | Except.error _ => StepOutcome.panicked
            | Except.ok _ => StepOutcome.sentSaveReply last_.hash

/-- Outcome of a PersistenceHandle call as observed by the caller. -/
inductive HandleOutcome where
  | panicked
  | value (hash : Nat)
  deriving DecidableEq

/-- PersistenceHandle::save_blocks (persistence.rs): sending the request
uses expect — a failed send (actor gone) panics — and awaiting the reply
uses expect — a dropped reply channel panics.  The channel states are the
inputs: whether the send succeeds, and the reply if one arrives. -/
def PersistenceHandle.save_blocks (sendSucceeds : Bool) (reply : Option Nat) :
    HandleOutcome :=
  if sendSucceeds then
    match reply with
    | some h => HandleOutcome.value h
    | none => HandleOutcome.panicked
  else HandleOutcome.panicked

/-- Outcome of PersistenceHandle::remove_blocks_above as observed by the
caller. -/
inductive HandleRemoveOutcome where
  | panicked
  | value (blocks : List ExecutedBlock)
  deriving DecidableEq

/-- PersistenceHandle::remove_blocks_above: same expect-based channel
handling as save_blocks. -/
def PersistenceHandle.remove_blocks_above (sendSucceeds : Bool)
    (reply : Option (List ExecutedBlock)) : HandleRemoveOutcome :=
  if sendSucceeds then
    match reply with
    | some bs => HandleRemoveOutcome.value bs
    | none => HandleRemoveOutcome.panicked
  else HandleRemoveOutcome.panicked

/-- A provider whose state write fails with a storage error on every block,
and one that always succeeds. -/
def failingProvider : Provider :=
  ⟨Except.ok (), fun _ => Except.ok (), fun _ => Except.error (DbError.storage 7),
    fun _ => Except.ok (), fun _ => Except.ok (), fun _ _ => Except.ok (),
    fun _ => Except.ok ()⟩

def okProvider : Provider :=
  ⟨Except.ok (), fun _ => Except.ok (), fun _ => Except.ok (),
    fun _ => Except.ok (), fun _ => Except.ok (), fun _ _ => Except.ok (),
    fun _ => Except.ok ()⟩

/-- C3 evidence: a storage-level failure while processing a nonempty
SaveBlocks request makes the actor iteration panic — unwinding and
terminating the actor loop — instead of sending the error on the request's
reply channel and continuing; for contrast, the same request succeeds and
replies under the non-failing provider. -/
theorem storage_failure_panics_actor :
    Persistence.write failingProvider [⟨10, 77⟩] =
        Except.error (DbError.storage 7) ∧
      Persistence.runStep failingProvider
          (PersistenceAction.SaveBlocks [⟨10, 77⟩]) = StepOutcome.panicked ∧
      Persistence.runStep okProvider
          (PersistenceAction.SaveBlocks [⟨10, 77⟩]) =
        StepOutcome.sentSaveReply 77 :=
  ⟨rfl, rfl, rfl⟩

/-- C4 evidence: a SaveBlocks request with an empty block sequence makes the
actor iteration panic via the todo macro — no reply, no defined error —
under any provider, including one that never fails. -/
theorem empty_save_blocks_panics :
    Persistence.runStep okProvider (PersistenceAction.SaveBlocks []) =
        StepOutcome.panicked ∧
      Persistence.runStep failingProvider (PersistenceAction.SaveBlocks []) =
        StepOutcome.panicked :=
  ⟨rfl, rfl⟩

/-- C9 evidence: when the actor has terminated, the handle calls panic via
expect — on a failed channel send, and on a reply channel dropped without a
reply — instead of failing with a distinguishable actor-unavailable
condition. -/
theorem handle_panics_when_actor_gone :
    PersistenceHandle.save_blocks false none = HandleOutcome.panicked ∧
      PersistenceHandle.save_blocks true none = HandleOutcome.panicked ∧
      PersistenceHandle.remove_blocks_above false none =
        HandleRemoveOutcome.panicked ∧
      PersistenceHandle.remove_blocks_above true none =
        HandleRemoveOutcome.panicked :=
  ⟨rfl, rfl, rfl, rfl⟩
